import Mathlib

/-!
Verification of the devtidy core (main.go): the concurrent directory walker
(`boundedWalk`), the builtin-pattern and gitignore scanners
(`scanForCleanableItems`, `scanGitignoreItems`), the gitignore matcher
(`matchesGitignorePattern`), the size aggregator (`getDirectorySize`), and the
selection / cleanup pipeline (`toggleSelection`, `startCleaning`,
`startCleaningProcess`, the `cleanSingleItem` message handler).

The filesystem is modelled as an inductive tree `FS`; paths are lists of name
segments relative to the scan root (the Go code builds absolute paths with
`filepath.Join(root, ...)`; the root prefix is common to every path the core
manipulates, so only the relative segments are modelled).  Go `int64` byte
sizes are modelled as `Nat` (actual file sizes are non-negative and nowhere
near overflow).  Concurrency is modelled two ways: the canonical sequential
emission list `FS.walkFrom`, and a small-step relation `WalkStep` in which any
pending directory may be processed next, covering every interleaving of any
number of workers.
-/

namespace DevTidy

/-- Filesystem tree: a regular file carries its size and whether `stat`
(`DirEntry.Info`) succeeds; a directory carries whether `os.ReadDir` succeeds
(`readable`) and its entries. -/
inductive FS where
  | file (name : String) (size : Nat) (statOk : Bool)
  | dir (name : String) (readable : Bool) (entries : List FS)

mutual
def FS.decEq : (a b : FS) → Decidable (a = b)
  | .file n s ok, .file n' s' ok' =>
    if h1 : n = n' then
      if h2 : s = s' then
        if h3 : ok = ok' then isTrue (by rw [h1, h2, h3])
        else isFalse (by intro h; cases h; exact h3 rfl)
      else isFalse (by intro h; cases h; exact h2 rfl)
    else isFalse (by intro h; cases h; exact h1 rfl)
  | .dir n r es, .dir n' r' es' =>
    if h1 : n = n' then
      if h2 : r = r' then
        match FS.decEqList es es' with
        | isTrue h3 => isTrue (by rw [h1, h2, h3])
        | isFalse h3 => isFalse (by intro h; cases h; exact h3 rfl)
      else isFalse (by intro h; cases h; exact h2 rfl)
    else isFalse (by intro h; cases h; exact h1 rfl)
  | .file _ _ _, .dir _ _ _ => isFalse (by intro h; cases h)
  | .dir _ _ _, .file _ _ _ => isFalse (by intro h; cases h)

def FS.decEqList : (a b : List FS) → Decidable (a = b)
  | [], [] => isTrue rfl
  | [], _ :: _ => isFalse (by intro h; cases h)
  | _ :: _, [] => isFalse (by intro h; cases h)
  | e :: es, f :: fs =>
    match FS.decEq e f with
    | isTrue h1 =>
      match FS.decEqList es fs with
      | isTrue h2 => isTrue (by rw [h1, h2])
      | isFalse h2 => isFalse (by intro h; cases h; exact h2 rfl)
    | isFalse h1 => isFalse (by intro h; cases h; exact h1 rfl)
end

instance : DecidableEq FS := FS.decEq

def FS.isDir : FS → Bool
  | .file _ _ _ => false
  | .dir _ _ _ => true

def FS.name : FS → String
  | .file n _ _ => n
  | .dir n _ _ => n

/-- Real filesystems never hold two entries of the same name in one directory:
`namesPairwiseDistinct` checks a name list for duplicates. -/
def namesPairwiseDistinct : List String → Bool
  | [] => true
  | n :: ns => !(ns.contains n) && namesPairwiseDistinct ns

mutual
/-- Well-formedness of a modelled tree: entry names are distinct within every
directory (the invariant `os.ReadDir` guarantees). -/
def FS.wfNames : FS → Bool
  | .file _ _ _ => true
  | .dir _ _ entries =>
    namesPairwiseDistinct (entries.map FS.name) && FS.wfNamesList entries

def FS.wfNamesList : List FS → Bool
  | [] => true
  | e :: es => FS.wfNames e && FS.wfNamesList es
end

mutual
/-- Embeds `getDirectorySize` (main.go:658-680): `filepath.WalkDir` visits the
subtree, skipping a directory's contents when reading it fails (the callback
returns nil on `err != nil`), ignoring directories themselves, and adding
`fi.Size()` for each regular file whose `d.Info()` succeeds (a failed stat
contributes zero).  The goroutine-per-file accumulation through
`atomic.AddInt64` is order-independent; the canonical sum is taken here and
order-independence is proved separately. -/
def FS.dirSize : FS → Nat
  | .file _ sz ok => if ok then sz else 0
  | .dir _ rd entries => if rd then FS.dirSizeList entries else 0

def FS.dirSizeList : List FS → Nat
  | [] => 0
  | e :: es => FS.dirSize e + FS.dirSizeList es
end

mutual
/-- Modelled from the spec (§4.3 SizeAggregator): the list of sizes of the
regular files under a path, "directories not counted", unreadable entries
contributing zero and not aborting the computation.  Stated separately from
`FS.dirSize` so that the aggregator can be compared against it. -/
def FS.regFileSizes : FS → List Nat
  | .file _ sz ok => if ok then [sz] else []
  | .dir _ rd entries => if rd then FS.regFileSizesList entries else []

def FS.regFileSizesList : List FS → List Nat
  | [] => []
  | e :: es => FS.regFileSizes e ++ FS.regFileSizesList es
end

/-- A unit of walker work/output: `boundedWalk` emits `scanJob{root, info}`
pairs; `path` is the directory's path relative to the scan root. -/
structure Task where
  path : List String
  tree : FS
deriving DecidableEq

/-- Embeds the walker's per-directory body (main.go:436-457): `os.ReadDir`
fails on an unreadable directory (worker does `continue`); non-directory
entries are skipped; an entry named `.git` is skipped (the surrounding
dot-name test only ever fires for `.git`, since `ReadDir` never yields `.`);
every remaining subdirectory is both emitted and pushed back onto the work
list. -/
def Task.children (t : Task) : List Task :=
  match t.tree with
  | .file _ _ _ => []
  | .dir _ rd entries =>
    if rd then
      (entries.filter (fun e => e.isDir && !(e.name == ".git"))).map
        (fun e => ⟨t.path ++ [e.name], e⟩)
    else []

mutual
/-- Canonical sequential emission list of `boundedWalk` (main.go:409-469)
started at one pending directory: each subdirectory of a readable directory
(excluding `.git`) is emitted and then walked in turn.  Worker scheduling only
permutes this output; the `WalkStep` relation below covers all schedules. -/
def FS.walkFrom (p : List String) : FS → List Task
  | .file _ _ _ => []
  | .dir _ rd entries => if rd then FS.walkFromList p entries else []

def FS.walkFromList (p : List String) : List FS → List Task
  | [] => []
  | e :: es =>
    (if e.isDir && !(e.name == ".git") then
       (⟨p ++ [e.name], e⟩ : Task) :: FS.walkFrom (p ++ [e.name]) e
     else []) ++ FS.walkFromList p es
end

/-- Canonical emission list of a whole `boundedWalk(root, ...)` run, the root
task being the scanned directory itself (which is never emitted). -/
def Task.walkAll (t : Task) : List Task := FS.walkFrom t.path t.tree

/-- One step of `boundedWalk`'s worker loop (main.go:424-459), scheduling
abstracted: any pending directory may be popped next (the Go code pops the
last element, but workers interleave, so an arbitrary element of the pending
multiset can be the next one fully processed); its children are emitted and
appended to the pending work.  The emitted stream is tracked as a multiset
since consumers never rely on order. -/
inductive WalkStep :
    List Task × Multiset Task → List Task × Multiset Task → Prop where
  | pop (l₁ l₂ : List Task) (t : Task) (em : Multiset Task) :
      WalkStep (l₁ ++ t :: l₂, em)
        (l₁ ++ l₂ ++ t.children, em + (t.children : Multiset Task))

/-- Multiset of everything still to be emitted from the pending work list. -/
def walkPotential (pending : List Task) : Multiset Task :=
  (pending.map (fun t => (t.walkAll : Multiset Task))).sum

/-- Modelled from the spec (§4.2 DirectoryWalker): `EmittedBy p fs u` holds
iff directory `u` is reachable from the root `fs` (at path `p`) through a
chain of readable directories, never entering a `.git` directory.  This is the
spec-level notion of "every directory reachable from root, excluding `.git`,
silently skipping unreadable directories". -/
inductive EmittedBy : List String → FS → Task → Prop where
  | here (p : List String) (n : String) (entries : List FS) (e : FS) :
      e ∈ entries → e.isDir = true → e.name ≠ ".git" →
      EmittedBy p (.dir n true entries) ⟨p ++ [e.name], e⟩
  | deeper (p : List String) (n : String) (entries : List FS) (e : FS)
      (u : Task) :
      e ∈ entries → e.isDir = true → e.name ≠ ".git" →
      EmittedBy (p ++ [e.name]) e u → EmittedBy p (.dir n true entries) u

/-- Models `strings.HasPrefix(s, pre)`. -/
def goHasPrefix (s pre : String) : Bool := pre.data.isPrefixOf s.data

/-- Models `strings.HasSuffix(s, suf)`. -/
def goHasSuffix (s suf : String) : Bool := suf.data.isSuffixOf s.data

def containsChars (s sub : List Char) : Bool :=
  sub.isPrefixOf s ||
    (match s with
     | [] => false
     | _ :: cs => containsChars cs sub)

/-- Models `strings.Contains(s, sub)` (true for an empty `sub`). -/
def goContains (s sub : String) : Bool := containsChars s.data sub.data

/-- Models `strings.TrimSuffix(s, suf)`: drops one trailing copy of `suf`. -/
def goTrimSuffix (s suf : String) : String :=
  if goHasSuffix s suf then
    String.mk (s.data.take (s.data.length - suf.data.length))
  else s

/-- Models `strings.TrimSpace` (ASCII whitespace; the Unicode classes Go also
trims do not occur in gitignore files handled here). -/
def goTrimSpace (s : String) : String :=
  String.mk
    (((s.data.dropWhile Char.isWhitespace).reverse.dropWhile
        Char.isWhitespace).reverse)

/-- Models `filepath.Base` for the walker's relative paths (nonempty,
slash-separated, no trailing slash): everything after the final `/`. -/
def goBase (s : String) : String :=
  String.mk ((s.data.reverse.takeWhile (fun c => !(c == '/'))).reverse)

/-- Helper for the `*` wildcard of `path/filepath.Match`: tries the rest of
the pattern against every suffix of the name reachable by deleting leading
non-separator characters. -/
def globStar (matchRest : List Char → Bool) : List Char → Bool
  | [] => matchRest []
  | c :: cs => matchRest (c :: cs) || (!(c == '/') && globStar matchRest cs)

/-- Models Go `path/filepath.Match` (called at main.go:517 and 646-650 with
errors discarded): `*` matches any run of non-separator characters, `?` one
non-separator character, `\x` the literal `x`; a malformed trailing `\`
yields no match, like the discarded `ErrBadPattern`.  Character classes
(`[...]`) are not modelled and conservatively yield no match: no builtin
pattern and no claim uses them. -/
def globMatch : List Char → List Char → Bool
  | [], s => s.isEmpty
  | '*' :: ps, s => globStar (globMatch ps) s
  | '?' :: ps, s =>
    match s with
    | [] => false
    | c :: cs => !(c == '/') && globMatch ps cs
  | '\\' :: rest, s =>
    match rest, s with
    | x :: ps, c :: cs => c == x && globMatch ps cs
    | _, _ => false
  | '[' :: _, _ => false
  | c :: ps, s =>
    match s with
    | [] => false
    | d :: cs => c == d && globMatch ps cs

/-- Models `filepath.Match(pattern, name)` on strings, match-or-false. -/
def filepathMatch (pattern name : String) : Bool :=
  globMatch pattern.data name.data

/-- Embeds `matchesGitignorePattern` (main.go:639-656); the Go code shadows
`pattern` with `strings.TrimSuffix(pattern, "/")` in the first branch, which
is inlined here. -/
def matchesGitignorePattern (pattern path : String) : Bool :=
  if goHasSuffix pattern "/" then
    goHasPrefix path (goTrimSuffix pattern "/" ++ "/") ||
      path == goTrimSuffix pattern "/"
  else if goContains pattern "*" then
    filepathMatch pattern (goBase path) || filepathMatch pattern path
  else
    path == pattern || goContains path pattern ||
      goHasSuffix path ("/" ++ pattern)

/-- Embeds the builtin pattern table (main.go:483-502).  Go iterates the map
in unspecified order; the list fixes the source order, and no name matches two
entries of the table, so the chosen category never depends on the order. -/
def builtinPatterns : List (String × String) :=
  [("node_modules", "Node.js dependencies"),
   ("target", "Rust build artifacts"),
   ("build", "Build artifacts"),
   ("dist", "Distribution files"),
   ("__pycache__", "Python cache"),
   (".pytest_cache", "Pytest cache"),
   ("venv", "Python virtual environment"),
   ("env", "Python virtual environment"),
   (".venv", "Python virtual environment"),
   ("vendor", "Vendor dependencies"),
   ("deps", "Elixir dependencies"),
   ("_build", "Elixir build artifacts"),
   (".gradle", "Gradle cache"),
   ("cmake-build-debug", "CMake build artifacts"),
   ("cmake-build-release", "CMake build artifacts"),
   ("DerivedData", "Xcode derived data"),
   ("*.log", "Log files"),
   ("*.tmp", "Temporary files")]

/-- Embeds the per-pattern test of the scan worker (main.go:514-520): glob
patterns go through `filepath.Match` on the base name, the rest by string
equality. -/
def nameMatchesPattern (pat name : String) : Bool :=
  if goContains pat "*" then filepathMatch pat name else name == pat

/-- First matching builtin table entry for a base name (the worker returns at
the first match, main.go:521-538). -/
def classifyName (name : String) : Option (String × String) :=
  builtinPatterns.find? (fun pd => nameMatchesPattern pd.1 name)

/-- Embeds `CleanableItem` (main.go:24-30); `Path` is relative segments and
`Type'` stands for the Go field `Type` (a keyword here). -/
structure CleanableItem where
  Path : List String
  Type' : String
  Size : Nat
  Info : String
  Selected : Bool
deriving DecidableEq

/-- Base name of a walker path: `filepath.Base(j.root)` is the final segment
of the joined path. -/
def baseSeg (p : List String) : String := p.getLastD ""

/-- Relative path handed to the gitignore matcher:
`filepath.Rel(dir, filepath.Join(dir, segments))` joins the segments with
`/`. -/
def relString (p : List String) : String := String.intercalate "/" p

/-- Embeds the builtin-mode scan `scanForCleanableItems` (main.go:508-544):
every walker emission whose base name matches a table entry becomes one item
with its cached subtree size; emissions matching nothing are dropped.  The
per-job goroutines only permute item order; the canonical walk order is used
(the size cache is semantically the identity). -/
def scanBuiltin (fs : FS) : List CleanableItem :=
  (Task.walkAll ⟨[], fs⟩).filterMap (fun j =>
    (classifyName (baseSeg j.path)).map (fun pd =>
      { Path := j.path, Type' := pd.2, Size := j.tree.dirSize, Info := pd.2,
        Selected := false }))

/-- Embeds the `.gitignore` line filter (main.go:594-601): trimmed lines that
are nonempty, not comments and not negations become patterns. -/
def parseGitignoreLines (lines : List String) : List String :=
  (lines.map goTrimSpace).filter (fun l =>
    !(l == "") && !(goHasPrefix l "#") && !(goHasPrefix l "!"))

/-- Embeds the body of the job loop of `scanGitignoreItems`
(main.go:608-635): the first matching pattern wins (`break`), and a path
already present in the accumulated items is not added again (the `found`
de-dup check). -/
def gitignoreStep (patterns : List String) (items : List CleanableItem)
    (j : Task) : List CleanableItem :=
  match patterns.find?
      (fun pat => matchesGitignorePattern pat (relString j.path)) with
  | none => items
  | some pat =>
    if items.any (fun it => it.Path == j.path) then items
    else
      items ++ [{ Path := j.path, Type' := "Gitignore pattern: " ++ pat,
                  Size := j.tree.dirSize, Info := "Matches .gitignore pattern",
                  Selected := false }]

/-- Embeds `scanGitignoreItems` (main.go:581-637) given the `.gitignore`
lines: fold the job loop over the walker's emissions. -/
def scanGitignoreItems (fs : FS) (lines : List String) : List CleanableItem :=
  (Task.walkAll ⟨[], fs⟩).foldl (gitignoreStep (parseGitignoreLines lines)) []

/-- Embeds the core fields of `Model` (main.go:67-82) that the selection and
cleanup pipeline touches. -/
structure Model where
  items : List CleanableItem
  cleaning : Bool
  cleanedSize : Nat
deriving DecidableEq

/-- Embeds `cleanProgressMsg` (main.go:60-64): the complete per-item progress
event — a path, a completed count and a total, and nothing else. -/
structure cleanProgressMsg where
  item : List String
  done : Nat
  total : Nat
deriving DecidableEq

/-- Embeds the removal loop of the `cleanSingleItem` handler
(main.go:231-236): drop the first model item whose path equals the cleaned
path. -/
def removeFirstByPath : List CleanableItem → List String → List CleanableItem
  | [], _ => []
  | x :: xs, p => if x.Path = p then xs else x :: removeFirstByPath xs p

/-- Embeds one `cleanSingleItem` step of `Model.Update` (main.go:219-269).
`del` is the outcome of `os.RemoveAll(item.Path)`: on success the item's size
is added to the cleaned total and the item is removed from the model; on
failure the model is untouched.  Either way the step emits
`cleanProgressMsg{item.Path, index+1, total}`.  (List-widget refresh and the
100ms pacing tick are rendering concerns and not modelled.) -/
def cleanSingleItemStep (del : List String → Bool) (m : Model)
    (item : CleanableItem) (index total : Nat) : Model × cleanProgressMsg :=
  let m' :=
    if del item.Path then
      { m with cleanedSize := m.cleanedSize + item.Size,
               items := removeFirstByPath m.items item.Path }
    else m
  (m', { item := item.Path, done := index + 1, total := total })

/-- Runs the `cleanSingleItem` message chain to completion over the snapshot
list taken at start (main.go:255-267): each step processes one snapshot item
and schedules the next index.  Returns the final model, the emitted progress
events in order, and the paths handed to `os.RemoveAll` (the attempted
deletions). -/
def runCleanLoop (del : List String → Bool) :
    Model → List CleanableItem → Nat → Nat →
      Model × List cleanProgressMsg × List (List String)
  | m, [], _, _ => (m, [], [])
  | m, it :: rest, index, total =>
    let step := cleanSingleItemStep del m it index total
    let restRun := runCleanLoop del step.1 rest (index + 1) total
    (restRun.1, step.2 :: restRun.2.1, it.Path :: restRun.2.2)

/-- Embeds `startCleaningProcess` (main.go:552-572) run to completion: take
the snapshot of selected items; with an empty selection only
`cleanCompleteMsg` is produced (no progress events, no deletions); otherwise
the `cleanSingleItem` chain starts at index 0 with the snapshot length as
total. -/
def startCleaningProcess (del : List String → Bool) (m : Model) :
    Model × List cleanProgressMsg × List (List String) :=
  let selectedItems := m.items.filter (fun it => it.Selected)
  if selectedItems.isEmpty then (m, [], [])
  else runCleanLoop del m selectedItems 0 selectedItems.length

/-- Embeds `Model.countSelectedItems` (main.go:394-402). -/
def countSelectedItems (m : Model) : Nat :=
  m.items.foldl (fun count item => if item.Selected then count + 1 else count) 0

/-- Embeds `Model.calculateTotalSelectedSize` (main.go:384-392). -/
def calculateTotalSelectedSize (m : Model) : Nat :=
  m.items.foldl
    (fun total item => if item.Selected then total + item.Size else total) 0

/-- Embeds `Model.startCleaning` (main.go:374-382): with nothing selected the
model is returned unchanged and no command is issued (the Bool is whether a
cleaning command was dispatched); otherwise the cleaning flag is set. -/
def startCleaning (m : Model) : Model × Bool :=
  if countSelectedItems m = 0 then (m, false)
  else ({ m with cleaning := true }, true)

/-- Embeds the toggle loop of `Model.toggleSelection` (main.go:354-372): flip
the `Selected` flag of the first item whose path equals the cursor item's
path, then stop. -/
def toggleFirstByPath : List CleanableItem → List String → List CleanableItem
  | [], _ => []
  | x :: xs, p =>
    if x.Path = p then { x with Selected := !x.Selected } :: xs
    else x :: toggleFirstByPath xs p

/-- Embeds `Model.toggleSelection` at the model level, the cursor given by
its path. -/
def toggleSelection (m : Model) (path : List String) : Model :=
  { m with items := toggleFirstByPath m.items path }

/-- Modelled from the spec (claim C2, spec §4.1): the claimed semantics of
the gitignore matcher, its three cases read in order (trailing slash first,
then wildcard, then the permissive literal case). -/
def gitignoreClaimSemantics (pattern path : String) : Prop :=
  if goHasSuffix pattern "/" = true then
    path = goTrimSuffix pattern "/" ∨
      goHasPrefix path (goTrimSuffix pattern "/" ++ "/") = true
  else if goContains pattern "*" = true then
    filepathMatch pattern (goBase path) = true ∨
      filepathMatch pattern path = true
  else
    path = pattern ∨ goContains path pattern = true ∨
      goHasSuffix path ("/" ++ pattern) = true

/-! Walker lemmas. -/

theorem walkFromList_eq (p : List String) (es : List FS) :
    FS.walkFromList p es =
      (es.filter (fun e => e.isDir && !(e.name == ".git"))).flatMap
        (fun e => (⟨p ++ [e.name], e⟩ : Task) ::
          FS.walkFrom (p ++ [e.name]) e) := by
  induction es with
  | nil => rfl
  | cons e es ih =>
    rw [FS.walkFromList, List.filter_cons]
    by_cases he : (e.isDir && !(e.name == ".git")) = true
    · rw [if_pos he, if_pos he, List.flatMap_cons, ih]
    · rw [if_neg he, if_neg he, ih, List.nil_append]

theorem walkAll_eq_children (t : Task) :
    t.walkAll = t.children.flatMap (fun c => c :: c.walkAll) := by
  obtain ⟨p, tr⟩ := t
  cases tr with
  | file n s ok => rfl
  | dir n rd es =>
    cases rd with
    | false => rfl
    | true =>
      show FS.walkFromList p es = _
      rw [walkFromList_eq]
      show _ = ((es.filter _).map _).flatMap _
      rw [List.flatMap_map]
      rfl

theorem mem_walkFromList (p : List String) (es : List FS) (u : Task) :
    u ∈ FS.walkFromList p es ↔
      ∃ e ∈ es, (e.isDir && !(e.name == ".git")) = true ∧
        (u = ⟨p ++ [e.name], e⟩ ∨ u ∈ FS.walkFrom (p ++ [e.name]) e) := by
  induction es with
  | nil => simp [FS.walkFromList]
  | cons e es ih =>
    rw [FS.walkFromList, List.mem_append, ih]
    constructor
    · rintro (hu | ⟨f, hf, hgood, hcase⟩)
      · by_cases he : (e.isDir && !(e.name == ".git")) = true
        · rw [if_pos he] at hu
          rcases List.mem_cons.mp hu with rfl | hu
          · exact ⟨e, List.mem_cons_self _ _, he, Or.inl rfl⟩
          · exact ⟨e, List.mem_cons_self _ _, he, Or.inr hu⟩
        · rw [if_neg he] at hu
          exact absurd hu (List.not_mem_nil u)
      · exact ⟨f, List.mem_cons_of_mem _ hf, hgood, hcase⟩
    · rintro ⟨f, hf, hgood, hcase⟩
      rcases List.mem_cons.mp hf with rfl | hf
      · left
        rw [if_pos hgood]
        rcases hcase with rfl | hu
        · exact List.mem_cons_self _ _
        · exact List.mem_cons_of_mem _ hu
      · exact Or.inr ⟨f, hf, hgood, hcase⟩

theorem mem_walkFrom (p : List String) (fs : FS) (u : Task) :
    u ∈ FS.walkFrom p fs ↔
      ∃ n entries, fs = FS.dir n true entries ∧
        u ∈ FS.walkFromList p entries := by
  cases fs with
  | file n s ok => simp [FS.walkFrom]
  | dir n rd entries =>
    cases rd with
    | false => simp [FS.walkFrom]
    | true =>
      show u ∈ FS.walkFromList p entries ↔ _
      constructor
      · intro hu
        exact ⟨n, entries, rfl, hu⟩
      · rintro ⟨n', entries', heq, hu⟩
        cases heq
        exact hu

theorem walkFrom_path_extends (p : List String) (fs : FS) :
    ∀ u ∈ FS.walkFrom p fs, p <+: u.path ∧ p.length < u.path.length := by
  intro u hu
  rw [mem_walkFrom] at hu
  obtain ⟨n, entries, rfl, hu⟩ := hu
  rw [mem_walkFromList] at hu
  obtain ⟨e, he, hgood, hcase⟩ := hu
  rcases hcase with rfl | hrec
  · refine ⟨⟨[e.name], rfl⟩, ?_⟩
    simp
  · obtain ⟨hpre, hlen⟩ := walkFrom_path_extends (p ++ [e.name]) e u hrec
    refine ⟨List.IsPrefix.trans ⟨[e.name], rfl⟩ hpre, ?_⟩
    have : p.length < (p ++ [e.name]).length := by simp
    omega
termination_by sizeOf fs
decreasing_by
  have hlt := List.sizeOf_lt_of_mem he
  subst_vars
  simp only [FS.dir.sizeOf_spec]
  omega

theorem walkFrom_isDir (p : List String) (fs : FS) :
    ∀ u ∈ FS.walkFrom p fs, u.tree.isDir = true := by
  intro u hu
  rw [mem_walkFrom] at hu
  obtain ⟨n, entries, rfl, hu⟩ := hu
  rw [mem_walkFromList] at hu
  obtain ⟨e, he, hgood, hcase⟩ := hu
  rcases hcase with rfl | hrec
  · exact (Bool.and_eq_true_iff.mp hgood).1
  · exact walkFrom_isDir (p ++ [e.name]) e u hrec
termination_by sizeOf fs
decreasing_by
  have hlt := List.sizeOf_lt_of_mem he
  subst_vars
  simp only [FS.dir.sizeOf_spec]
  omega

/-! Multiset accounting for the walker's step relation. -/

theorem coe_flatMap {α β : Type} (l : List α) (f : α → List β) :
    ((l.flatMap f : List β) : Multiset β) =
      (l.map (fun a => ((f a : List β) : Multiset β))).sum := by
  induction l with
  | nil => rfl
  | cons a l ih =>
    rw [List.flatMap_cons, List.map_cons, List.sum_cons, ← ih]
    exact (Multiset.coe_add _ _).symm

theorem walkPotential_nil : walkPotential [] = 0 := rfl

theorem walkPotential_cons (t : Task) (l : List Task) :
    walkPotential (t :: l) = (t.walkAll : Multiset Task) + walkPotential l := by
  simp [walkPotential]

theorem walkPotential_append (l₁ l₂ : List Task) :
    walkPotential (l₁ ++ l₂) = walkPotential l₁ + walkPotential l₂ := by
  simp [walkPotential]

theorem walkAll_coe (t : Task) :
    (t.walkAll : Multiset Task) =
      (t.children : Multiset Task) + walkPotential t.children := by
  rw [walkAll_eq_children, coe_flatMap, walkPotential]
  induction t.children with
  | nil => rfl
  | cons c l ih =>
    rw [List.map_cons, List.sum_cons, List.map_cons, List.sum_cons, ih,
      ← Multiset.cons_coe, ← Multiset.cons_coe, Multiset.cons_add,
      Multiset.cons_add]
    congr 1
    abel

theorem walkStep_potential {s s' : List Task × Multiset Task}
    (h : WalkStep s s') :
    s'.2 + walkPotential s'.1 = s.2 + walkPotential s.1 := by
  cases h with
  | pop l₁ l₂ t em =>
    show em + ↑t.children + walkPotential (l₁ ++ l₂ ++ t.children) =
      em + walkPotential (l₁ ++ t :: l₂)
    rw [walkPotential_append, walkPotential_append, walkPotential_append,
      walkPotential_cons, walkAll_coe]
    abel

theorem walkRun_potential {s s' : List Task × Multiset Task}
    (h : Relation.ReflTransGen WalkStep s s') :
    s'.2 + walkPotential s'.1 = s.2 + walkPotential s.1 := by
  induction h with
  | refl => rfl
  | tail _ hbc ih => rw [walkStep_potential hbc, ih]

/-- Any complete walker run from a single root emits exactly the canonical
multiset, independent of scheduling. -/
theorem walk_run_emits (root : Task) (em : Multiset Task)
    (h : Relation.ReflTransGen WalkStep ([root], 0) ([], em)) :
    em = (root.walkAll : Multiset Task) := by
  have hpot := walkRun_potential h
  simp only [walkPotential_nil, walkPotential_cons, add_zero, zero_add] at hpot
  exact hpot

/-! Exactly-once emission: on a well-formed tree the walker never emits a
directory twice. -/

theorem prefix_eq_of_length {α : Type} {l₁ l₂ L : List α} (h₁ : l₁ <+: L)
    (h₂ : l₂ <+: L) (hlen : l₁.length = l₂.length) : l₁ = l₂ :=
  (List.prefix_of_prefix_length_le h₁ h₂ (le_of_eq hlen)).eq_of_length hlen

theorem not_mem_of_contains_eq_false {l : List String} {n : String}
    (h : l.contains n = false) : n ∉ l := by
  intro hm
  simp at h
  exact h hm

mutual
theorem walkFrom_nodup (p : List String) (fs : FS)
    (h : FS.wfNames fs = true) : (FS.walkFrom p fs).Nodup := by
  cases fs with
  | file n s ok => exact List.nodup_nil
  | dir n rd es =>
    cases rd with
    | false => exact List.nodup_nil
    | true =>
      rw [FS.wfNames] at h
      obtain ⟨hnames, hwf⟩ := Bool.and_eq_true_iff.mp h
      show (FS.walkFromList p es).Nodup
      exact walkFromList_nodup p es hnames hwf

theorem walkFromList_nodup (p : List String) (es : List FS)
    (hnames : namesPairwiseDistinct (es.map FS.name) = true)
    (hwf : FS.wfNamesList es = true) : (FS.walkFromList p es).Nodup := by
  cases es with
  | nil => exact List.nodup_nil
  | cons e es =>
    rw [FS.walkFromList]
    rw [List.map_cons, namesPairwiseDistinct] at hnames
    obtain ⟨hnotmem, hnames'⟩ := Bool.and_eq_true_iff.mp hnames
    rw [FS.wfNamesList] at hwf
    obtain ⟨hwfe, hwf'⟩ := Bool.and_eq_true_iff.mp hwf
    refine List.Nodup.append ?_ (walkFromList_nodup p es hnames' hwf') ?_
    · by_cases hg : (e.isDir && !(e.name == ".git")) = true
      · rw [if_pos hg]
        refine List.nodup_cons.mpr
          ⟨?_, walkFrom_nodup (p ++ [e.name]) e hwfe⟩
        intro hmem
        have hlen := (walkFrom_path_extends (p ++ [e.name]) e _ hmem).2
        simp at hlen
      · rw [if_neg hg]
        exact List.nodup_nil
    · refine List.disjoint_left.mpr ?_
      intro u hu1 hu2
      have hpre1 : (p ++ [e.name]) <+: u.path := by
        by_cases hg : (e.isDir && !(e.name == ".git")) = true
        · rw [if_pos hg] at hu1
          rcases List.mem_cons.mp hu1 with rfl | hu1
          · exact List.prefix_refl _
          · exact (walkFrom_path_extends (p ++ [e.name]) e u hu1).1
        · rw [if_neg hg] at hu1
          exact absurd hu1 (List.not_mem_nil u)
      rw [mem_walkFromList] at hu2
      obtain ⟨f, hf, hgf, hcase⟩ := hu2
      have hpre2 : (p ++ [f.name]) <+: u.path := by
        rcases hcase with rfl | hrec
        · exact List.prefix_refl _
        · exact (walkFrom_path_extends (p ++ [f.name]) f u hrec).1
      have heq : p ++ [e.name] = p ++ [f.name] :=
        prefix_eq_of_length hpre1 hpre2 (by simp)
      have hname : e.name = f.name := by
        have hc := List.append_cancel_left heq
        simpa using hc
      have hmem : e.name ∈ es.map FS.name :=
        hname ▸ List.mem_map_of_mem FS.name hf
      have hcontains : (es.map FS.name).contains e.name = false := by
        cases hcb : (es.map FS.name).contains e.name with
        | false => rfl
        | true =>
          rw [hcb] at hnotmem
          exact absurd hnotmem (by decide)
      exact not_mem_of_contains_eq_false hcontains hmem
end

/-- Spec-level characterization of the walker's emissions: exactly the
directories reachable through readable, non-`.git` ancestry. -/
theorem walkFrom_iff_emittedBy (p : List String) (fs : FS) (u : Task) :
    u ∈ FS.walkFrom p fs ↔ EmittedBy p fs u := by
  constructor
  · intro hu
    rw [mem_walkFrom] at hu
    obtain ⟨n, entries, rfl, hu⟩ := hu
    rw [mem_walkFromList] at hu
    obtain ⟨e, he, hgood, hcase⟩ := hu
    obtain ⟨hdir, hgit⟩ := Bool.and_eq_true_iff.mp hgood
    have hgit' : e.name ≠ ".git" := by
      intro hn
      rw [hn] at hgit
      simp at hgit
    rcases hcase with rfl | hrec
    · exact EmittedBy.here p n entries e he hdir hgit'
    · exact EmittedBy.deeper p n entries e u he hdir hgit'
        ((walkFrom_iff_emittedBy (p ++ [e.name]) e u).mp hrec)
  · intro hu
    induction hu with
    | here p n entries e he hdir hgit =>
      rw [mem_walkFrom]
      refine ⟨n, entries, rfl, ?_⟩
      rw [mem_walkFromList]
      exact ⟨e, he, by simp [hdir, hgit], Or.inl rfl⟩
    | deeper p n entries e u he hdir hgit _ ih =>
      rw [mem_walkFrom]
      refine ⟨n, entries, rfl, ?_⟩
      rw [mem_walkFromList]
      exact ⟨e, he, by simp [hdir, hgit], Or.inr ih⟩
termination_by sizeOf fs
decreasing_by
  have hlt := List.sizeOf_lt_of_mem he
  subst_vars
  simp only [FS.dir.sizeOf_spec]
  omega

/-! Scanner lemmas. -/

theorem mem_scanBuiltin (fs : FS) (i : CleanableItem) :
    i ∈ scanBuiltin fs ↔
      ∃ j ∈ Task.walkAll ⟨[], fs⟩, ∃ pd,
        classifyName (baseSeg j.path) = some pd ∧
        ({ Path := j.path, Type' := pd.2, Size := j.tree.dirSize,
           Info := pd.2, Selected := false } : CleanableItem) = i := by
  rw [scanBuiltin, List.mem_filterMap]
  constructor
  · rintro ⟨j, hj, hf⟩
    rw [Option.map_eq_some'] at hf
    obtain ⟨pd, hpd, hi⟩ := hf
    exact ⟨j, hj, pd, hpd, hi⟩
  · rintro ⟨j, hj, pd, hpd, hi⟩
    refine ⟨j, hj, ?_⟩
    rw [Option.map_eq_some']
    exact ⟨pd, hpd, hi⟩

theorem gitignoreStep_nodup {ps : List String} {items : List CleanableItem}
    {j : Task} (h : (items.map CleanableItem.Path).Nodup) :
    ((gitignoreStep ps items j).map CleanableItem.Path).Nodup := by
  rw [gitignoreStep]
  split
  · exact h
  · split
    · exact h
    · next pat _ ha =>
      rw [List.map_append, List.map_cons, List.map_nil]
      rw [List.nodup_append]
      refine ⟨h, List.nodup_singleton _, ?_⟩
      intro x hx
      simp only [List.mem_singleton]
      intro hxj
      subst hxj
      rw [List.mem_map] at hx
      obtain ⟨it, hit, hpath⟩ := hx
      refine ha ?_
      rw [List.any_eq_true]
      exact ⟨it, hit, by rw [beq_iff_eq]; exact hpath⟩

theorem gitignoreStep_mono {ps : List String} {items : List CleanableItem}
    {j : Task} {x : List String} (h : x ∈ items.map CleanableItem.Path) :
    x ∈ (gitignoreStep ps items j).map CleanableItem.Path := by
  rw [gitignoreStep]
  split
  · exact h
  · split
    · exact h
    · rw [List.map_append]
      exact List.mem_append_left _ h

theorem gitignoreStep_adds {ps : List String} {items : List CleanableItem}
    {j : Task}
    (h : (ps.find?
      (fun pat => matchesGitignorePattern pat (relString j.path))).isSome
        = true) :
    j.path ∈ (gitignoreStep ps items j).map CleanableItem.Path := by
  rw [gitignoreStep]
  split
  · next hf =>
    rw [hf] at h
    exact absurd h (by decide)
  · split
    · next pat _ ha =>
      rw [List.any_eq_true] at ha
      obtain ⟨it, hit, hpath⟩ := ha
      rw [beq_iff_eq] at hpath
      rw [List.mem_map]
      exact ⟨it, hit, hpath⟩
    · rw [List.map_append, List.map_cons, List.map_nil]
      exact List.mem_append_right _ (List.mem_singleton.mpr rfl)

theorem gitignoreStep_origin {ps : List String} {items : List CleanableItem}
    {j : Task} {i : CleanableItem} (h : i ∈ gitignoreStep ps items j) :
    i ∈ items ∨ i.Path = j.path := by
  rw [gitignoreStep] at h
  split at h
  · exact Or.inl h
  · split at h
    · exact Or.inl h
    · rcases List.mem_append.mp h with hi | hi
      · exact Or.inl hi
      · rw [List.mem_singleton] at hi
        subst hi
        exact Or.inr rfl

theorem foldl_gitignore_nodup (ps : List String) (jobs : List Task)
    (items : List CleanableItem)
    (h : (items.map CleanableItem.Path).Nodup) :
    ((jobs.foldl (gitignoreStep ps) items).map CleanableItem.Path).Nodup := by
  induction jobs generalizing items with
  | nil => exact h
  | cons j jobs ih =>
    rw [List.foldl_cons]
    exact ih _ (gitignoreStep_nodup h)

theorem foldl_gitignore_mono (ps : List String) (jobs : List Task)
    (items : List CleanableItem) (x : List String)
    (h : x ∈ items.map CleanableItem.Path) :
    x ∈ (jobs.foldl (gitignoreStep ps) items).map CleanableItem.Path := by
  induction jobs generalizing items with
  | nil => exact h
  | cons j jobs ih =>
    rw [List.foldl_cons]
    exact ih _ (gitignoreStep_mono h)

theorem foldl_gitignore_mem (ps : List String) (jobs : List Task)
    (items : List CleanableItem) (j : Task) (hj : j ∈ jobs)
    (hmatch : (ps.find?
      (fun pat => matchesGitignorePattern pat (relString j.path))).isSome
        = true) :
    j.path ∈ (jobs.foldl (gitignoreStep ps) items).map CleanableItem.Path := by
  induction jobs generalizing items with
  | nil => exact absurd hj (List.not_mem_nil j)
  | cons j' jobs ih =>
    rw [List.foldl_cons]
    rcases List.mem_cons.mp hj with rfl | hj'
    · exact foldl_gitignore_mono ps jobs _ j.path (gitignoreStep_adds hmatch)
    · exact ih _ hj' 

theorem foldl_gitignore_origin (ps : List String) (jobs : List Task)
    (items : List CleanableItem) (i : CleanableItem)
    (h : i ∈ jobs.foldl (gitignoreStep ps) items) :
    i ∈ items ∨ ∃ j ∈ jobs, i.Path = j.path := by
  induction jobs generalizing items with
  | nil => exact Or.inl h
  | cons j jobs ih =>
    rw [List.foldl_cons] at h
    rcases ih _ h with hi | ⟨j', hj', hp⟩
    · rcases gitignoreStep_origin hi with hi' | hp
      · exact Or.inl hi'
      · exact Or.inr ⟨j, List.mem_cons_self _ _, hp⟩
    · exact Or.inr ⟨j', List.mem_cons_of_mem _ hj', hp⟩

/-! Selection and cleanup lemmas. -/

theorem foldl_count_eq (l : List CleanableItem) (acc : Nat) :
    l.foldl (fun count item => if item.Selected then count + 1 else count) acc
      = acc + (l.filter (fun it => it.Selected)).length := by
  induction l generalizing acc with
  | nil => simp
  | cons it l ih =>
    rw [List.foldl_cons, List.filter_cons]
    by_cases hs : it.Selected = true
    · rw [if_pos hs, if_pos hs, ih]
      simp
      omega
    · rw [if_neg hs, if_neg hs, ih]

theorem foldl_size_eq (l : List CleanableItem) (acc : Nat) :
    l.foldl (fun total item => if item.Selected then total + item.Size
      else total) acc
      = acc + ((l.filter (fun it => it.Selected)).map CleanableItem.Size).sum := by
  induction l generalizing acc with
  | nil => simp
  | cons it l ih =>
    rw [List.foldl_cons, List.filter_cons]
    by_cases hs : it.Selected = true
    · rw [if_pos hs, if_pos hs, ih, List.map_cons, List.sum_cons]
      omega
    · rw [if_neg hs, if_neg hs, ih]

theorem runCleanLoop_attempted (del : List String → Bool)
    (sel : List CleanableItem) (m : Model) (index total : Nat) :
    (runCleanLoop del m sel index total).2.2 = sel.map CleanableItem.Path := by
  induction sel generalizing m index with
  | nil => rfl
  | cons it rest ih =>
    rw [runCleanLoop, List.map_cons]
    rw [ih]

theorem toggleFirstByPath_involutive (l : List CleanableItem)
    (p : List String) :
    toggleFirstByPath (toggleFirstByPath l p) p = l := by
  induction l with
  | nil => rfl
  | cons x xs ih =>
    rw [toggleFirstByPath]
    by_cases hx : x.Path = p
    · rw [if_pos hx, toggleFirstByPath, if_pos hx]
      simp
    · rw [if_neg hx, toggleFirstByPath, if_neg hx, ih]

/-! Size aggregator lemmas. -/

mutual
theorem dirSize_eq_sum (fs : FS) : fs.dirSize = fs.regFileSizes.sum := by
  cases fs with
  | file n sz ok => cases ok <;> simp [FS.dirSize, FS.regFileSizes]
  | dir n rd es =>
    cases rd with
    | false => simp [FS.dirSize, FS.regFileSizes]
    | true =>
      show FS.dirSizeList es = (FS.regFileSizesList es).sum
      exact dirSizeList_eq_sum es

theorem dirSizeList_eq_sum (es : List FS) :
    FS.dirSizeList es = (FS.regFileSizesList es).sum := by
  cases es with
  | nil => rfl
  | cons e es' =>
    show FS.dirSize e + FS.dirSizeList es' =
      (FS.regFileSizes e ++ FS.regFileSizesList es').sum
    rw [List.sum_append, dirSize_eq_sum e, dirSizeList_eq_sum es']
end

/-! Claim theorems. -/

/-- Claim C2: `matchesGitignorePattern(pattern, relativePath)` implements
exactly the claimed case semantics — trailing `/` gives directory-anchor
matching (path equals the trimmed pattern or starts with it plus `/`), a
`*` pattern glob-matches the base name or the full path, and any other
pattern matches by equality, substring containment, or `/`-suffix — and the
concrete examples hold: `build/` matches `build` and `build/output` but not
`src/builder`; `*.log` matches `error.log` but not `error.log.txt`. -/
theorem claim_C2 :
    (∀ pattern path : String,
      matchesGitignorePattern pattern path = true ↔
        gitignoreClaimSemantics pattern path)
    ∧ matchesGitignorePattern "build/" "build" = true
    ∧ matchesGitignorePattern "build/" "build/output" = true
    ∧ matchesGitignorePattern "build/" "src/builder" = false
    ∧ matchesGitignorePattern "*.log" "error.log" = true
    ∧ matchesGitignorePattern "*.log" "error.log.txt" = false := by
  refine ⟨?_, by decide, by decide, by decide, by decide, by decide⟩
  intro pattern path
  rw [matchesGitignorePattern, gitignoreClaimSemantics]
  by_cases h1 : goHasSuffix pattern "/" = true
  · rw [if_pos h1, if_pos h1]
    rw [Bool.or_eq_true, beq_iff_eq]
    exact or_comm
  · rw [if_neg h1, if_neg h1]
    by_cases h2 : goContains pattern "*" = true
    · rw [if_pos h2, if_pos h2]
      rw [Bool.or_eq_true]
    · rw [if_neg h2, if_neg h2]
      rw [Bool.or_eq_true, Bool.or_eq_true, beq_iff_eq]
      exact or_assoc

/-- Claim C7: `getDirectorySize` returns the sum of the sizes of the regular
files its `WalkDir` traversal reaches (directories contribute nothing, a
failed stat contributes zero, an unreadable directory's contents are skipped
rather than aborting), and the concurrent accumulation is order-independent:
summing the reached file sizes in any order (any permutation, as the atomic
adds may interleave arbitrarily) gives the same value, so repeated calls on
an unmodified tree agree. -/
theorem claim_C7 :
    (∀ fs : FS, fs.dirSize = fs.regFileSizes.sum)
    ∧ ∀ (fs : FS) (l : List Nat), l.Perm fs.regFileSizes →
        l.sum = fs.dirSize := by
  refine ⟨dirSize_eq_sum, fun fs l hp => ?_⟩
  rw [hp.sum_eq, dirSize_eq_sum]

/-- Witness for C7 at a concrete tree: the two-file tree summed in reversed
accumulation order still gives `getDirectorySize`. -/
theorem claim_C7_witness :
    ([5, 3] : List Nat).sum =
      (FS.dir "r" true [FS.file "a" 3 true, FS.file "b" 5 true]).dirSize :=
  claim_C7.2 (FS.dir "r" true [FS.file "a" 3 true, FS.file "b" 5 true])
    [5, 3] (by decide)

/-- Claim C8: toggling the same path twice restores the item list (hence the
toggled item's `selected` flag), also at the model level, and
`calculateTotalSelectedSize` equals the sum of the sizes of exactly the
selected items. -/
theorem claim_C8 :
    (∀ (l : List CleanableItem) (p : List String),
      toggleFirstByPath (toggleFirstByPath l p) p = l)
    ∧ (∀ (m : Model) (p : List String),
      toggleSelection (toggleSelection m p) p = m)
    ∧ ∀ m : Model, calculateTotalSelectedSize m =
        ((m.items.filter (fun it => it.Selected)).map CleanableItem.Size).sum := by
  refine ⟨toggleFirstByPath_involutive, fun m p => ?_, fun m => ?_⟩
  · show ({ m with items := toggleFirstByPath (toggleFirstByPath m.items p) p }
      : Model) = m
    rw [toggleFirstByPath_involutive]
  · rw [calculateTotalSelectedSize, foldl_size_eq, Nat.zero_add]

/-- Claim C9: starting cleanup with nothing selected changes no state — the
model (items, cleaning flag, cleaned total) is returned unchanged, no command
is dispatched, and a `startCleaningProcess` run emits no progress events and
attempts no deletions. -/
theorem claim_C9 (m : Model) (h : countSelectedItems m = 0) :
    startCleaning m = (m, false)
    ∧ ∀ del : List String → Bool, startCleaningProcess del m = (m, [], []) := by
  have hfil : m.items.filter (fun it => it.Selected) = [] := by
    rw [← List.length_eq_zero]
    have hc := foldl_count_eq m.items 0
    rw [countSelectedItems] at h
    omega
  refine ⟨?_, fun del => ?_⟩
  · rw [startCleaning, if_pos h]
  · simp [startCleaningProcess, hfil]

/-- Witness for C9: a model holding one unselected item. -/
theorem claim_C9_witness :
    startCleaning ⟨[⟨["B"], "t", 50, "t", false⟩], false, 0⟩
      = (⟨[⟨["B"], "t", 50, "t", false⟩], false, 0⟩, false)
    ∧ startCleaningProcess (fun _ => true)
        ⟨[⟨["B"], "t", 50, "t", false⟩], false, 0⟩
      = (⟨[⟨["B"], "t", 50, "t", false⟩], false, 0⟩, [], []) :=
  ⟨(claim_C9 _ (by decide)).1, (claim_C9 _ (by decide)).2 _⟩

/-- Counterexample to claim C3 as stated: at a concrete item whose deletion
fails, the emitted per-item progress event is identical to the one emitted
when deletion succeeds — `cleanProgressMsg` carries a path and two counters
and no error field, so the failure is not surfaced to the caller through the
progress event (it is silently discarded); only the remain-in-inventory and
unchanged-total parts of the claim hold. -/
theorem claim_C3_counterexample :
    (cleanSingleItemStep (fun _ => false) ⟨[⟨["A"], "t", 100, "t", true⟩],
        false, 0⟩ ⟨["A"], "t", 100, "t", true⟩ 0 1).2
      = (cleanSingleItemStep (fun _ => true) ⟨[⟨["A"], "t", 100, "t", true⟩],
        false, 0⟩ ⟨["A"], "t", 100, "t", true⟩ 0 1).2
    ∧ (cleanSingleItemStep (fun _ => false) ⟨[⟨["A"], "t", 100, "t", true⟩],
        false, 0⟩ ⟨["A"], "t", 100, "t", true⟩ 0 1).1
      = ⟨[⟨["A"], "t", 100, "t", true⟩], false, 0⟩ := by
  exact ⟨rfl, rfl⟩

/-- Claim C3 as amended: when deleting an item fails, the item remains in the
inventory and the cumulative cleaned-size total is unchanged (the model is
returned untouched), and a per-item progress event is still emitted — but it
carries only the path and the counters, identical to the success-case event;
the error itself is silently discarded rather than surfaced. -/
theorem claim_C3 (del : List String → Bool) (m : Model) (it : CleanableItem)
    (index total : Nat) (h : del it.Path = false) :
    cleanSingleItemStep del m it index total
      = (m, { item := it.Path, done := index + 1, total := total })
    ∧ (cleanSingleItemStep del m it index total).2
      = (cleanSingleItemStep (fun _ => true) m it index total).2 := by
  constructor
  · rw [cleanSingleItemStep]
    simp [h]
  · rfl

/-- Witness for C3 at a concrete always-failing deletion. -/
theorem claim_C3_witness :
    cleanSingleItemStep (fun _ => false) ⟨[⟨["B"], "t", 50, "t", true⟩],
        false, 7⟩ ⟨["B"], "t", 50, "t", true⟩ 2 3
      = (⟨[⟨["B"], "t", 50, "t", true⟩], false, 7⟩, ⟨["B"], 3, 3⟩)
    ∧ (cleanSingleItemStep (fun _ => false) ⟨[⟨["B"], "t", 50, "t", true⟩],
        false, 7⟩ ⟨["B"], "t", 50, "t", true⟩ 2 3).2
      = (cleanSingleItemStep (fun _ => true) ⟨[⟨["B"], "t", 50, "t", true⟩],
        false, 7⟩ ⟨["B"], "t", 50, "t", true⟩ 2 3).2 :=
  claim_C3 (fun _ => false) ⟨[⟨["B"], "t", 50, "t", true⟩], false, 7⟩
    ⟨["B"], "t", 50, "t", true⟩ 2 3 rfl

/-- Claim C6: on the inventory `{A (selected, 100), B (unselected, 50)}` with
`A`'s deletion succeeding, a full cleanup run yields cleaned size 100, the
inventory `{B}`, exactly one progress event `{A, 1, 1}` (and one attempted
deletion, of `A`); and in general the paths handed to `os.RemoveAll` are
exactly the paths of the selected snapshot — unselected items are never
deleted. -/
theorem claim_C6 :
    (startCleaningProcess (fun _ => true)
        ⟨[⟨["A"], "t", 100, "t", true⟩, ⟨["B"], "t", 50, "t", false⟩],
          false, 0⟩
      = (⟨[⟨["B"], "t", 50, "t", false⟩], false, 100⟩,
          [⟨["A"], 1, 1⟩], [["A"]]))
    ∧ ∀ (del : List String → Bool) (m : Model),
        (startCleaningProcess del m).2.2 =
          (m.items.filter (fun it => it.Selected)).map CleanableItem.Path := by
  refine ⟨by decide, fun del m => ?_⟩
  by_cases he : (m.items.filter (fun it => it.Selected)).isEmpty = true
  · have hfil : m.items.filter (fun it => it.Selected) = [] := by
      rwa [List.isEmpty_iff] at he
    simp [startCleaningProcess, hfil]
  · simp only [startCleaningProcess, he, if_false, Bool.false_eq_true]
    exact runCleanLoop_attempted del _ m 0 _

/-- Counterexample to claim C1 as stated: in the tree `r/build/dist`, both
`build` and `build/dist` match builtin patterns and both become items, and
`build` is a strict ancestor of `build/dist` — `boundedWalk` re-enqueues
every subdirectory including accepted ones, so no pruning happens. -/
theorem claim_C1_counterexample :
    ∃ i₁ ∈ scanBuiltin
        (FS.dir "r" true [FS.dir "build" true [FS.dir "dist" true []]]),
      ∃ i₂ ∈ scanBuiltin
          (FS.dir "r" true [FS.dir "build" true [FS.dir "dist" true []]]),
        i₁.Path ≠ i₂.Path ∧ i₁.Path.isPrefixOf i₂.Path = true := by
  refine ⟨⟨["build"], "Build artifacts", 0, "Build artifacts", false⟩,
    by decide, ⟨["build", "dist"], "Distribution files", 0,
      "Distribution files", false⟩, by decide, by decide, by decide⟩

/-- Claim C1 as amended: the walker descends into accepted directories, so
whether an emitted directory becomes an item depends only on its own base
name matching the builtin table, never on an ancestor having been accepted —
in particular a descendant of an accepted directory that itself matches a
builtin pattern does appear as a separate item. -/
theorem claim_C1 (fs : FS) (j : Task) (hj : j ∈ Task.walkAll ⟨[], fs⟩) :
    (∃ i ∈ scanBuiltin fs, i.Path = j.path) ↔
      (classifyName (baseSeg j.path)).isSome = true := by
  constructor
  · rintro ⟨i, hi, hpath⟩
    rw [mem_scanBuiltin] at hi
    obtain ⟨j', hj', pd, hpd, hi⟩ := hi
    subst hi
    have hp2 : j'.path = j.path := hpath
    rw [← hp2, hpd]
    rfl
  · intro hsome
    obtain ⟨pd, hpd⟩ := Option.isSome_iff_exists.mp hsome
    exact ⟨_, (mem_scanBuiltin fs _).mpr ⟨j, hj, pd, hpd, rfl⟩, rfl⟩

/-- Witness for C1 at the emitted directory `build/dist` of the `r/build/dist`
tree: it matches the table, so an item with its path exists. -/
theorem claim_C1_witness :
    ∃ i ∈ scanBuiltin
        (FS.dir "r" true [FS.dir "build" true [FS.dir "dist" true []]]),
      i.Path = ["build", "dist"] :=
  (claim_C1 (FS.dir "r" true [FS.dir "build" true [FS.dir "dist" true []]])
    ⟨["build", "dist"], FS.dir "dist" true []⟩ (by decide)).mpr (by decide)

/-- Claim C5: a gitignore-mode scan holds at most one item per unique path
(the path list is duplicate-free), and whenever an emitted directory matches
at least one parsed pattern — the first match short-circuiting — exactly one
item with that path is present. -/
theorem claim_C5 (fs : FS) (lines : List String) :
    ((scanGitignoreItems fs lines).map CleanableItem.Path).Nodup
    ∧ ∀ j ∈ Task.walkAll ⟨[], fs⟩,
        ((parseGitignoreLines lines).find?
          (fun pat => matchesGitignorePattern pat (relString j.path))).isSome
            = true →
        j.path ∈ (scanGitignoreItems fs lines).map CleanableItem.Path := by
  refine ⟨foldl_gitignore_nodup _ _ [] (by simp), fun j hj hmatch => ?_⟩
  exact foldl_gitignore_mem _ _ [] j hj hmatch

/-- Witness for C5: the patterns `build/` and `build` both match the emitted
directory `build`, which still appears exactly once (its path is present and
the path list is duplicate-free). -/
theorem claim_C5_witness :
    ((scanGitignoreItems (FS.dir "r" true [FS.dir "build" true []])
        ["build/", "build"]).map CleanableItem.Path).Nodup
    ∧ ["build"] ∈ (scanGitignoreItems (FS.dir "r" true
        [FS.dir "build" true []])
        ["build/", "build"]).map CleanableItem.Path :=
  ⟨(claim_C5 (FS.dir "r" true [FS.dir "build" true []])
      ["build/", "build"]).1,
   (claim_C5 (FS.dir "r" true [FS.dir "build" true []])
      ["build/", "build"]).2 ⟨["build"], FS.dir "build" true []⟩
     (by decide) (by decide)⟩

/-- Claim C10: the walker emits only directories and only strict
subdirectories of the root (a nonempty relative path), and every item of
either scan mode carries the path of such an emission — so an item never
refers to a regular file (the `*.log` and `*.tmp` globs can only accept
directories whose names fit them) and never to the scan root itself. -/
theorem claim_C10 (fs : FS) (lines : List String) :
    (∀ u ∈ Task.walkAll ⟨[], fs⟩, u.tree.isDir = true ∧ u.path ≠ [])
    ∧ (∀ i ∈ scanBuiltin fs, ∃ u ∈ Task.walkAll ⟨[], fs⟩,
        i.Path = u.path ∧ u.tree.isDir = true ∧ u.path ≠ [])
    ∧ (∀ i ∈ scanGitignoreItems fs lines, ∃ u ∈ Task.walkAll ⟨[], fs⟩,
        i.Path = u.path ∧ u.tree.isDir = true ∧ u.path ≠ []) := by
  have hbase : ∀ u ∈ Task.walkAll ⟨[], fs⟩,
      u.tree.isDir = true ∧ u.path ≠ [] := by
    intro u hu
    refine ⟨walkFrom_isDir [] fs u hu, ?_⟩
    have hlen := (walkFrom_path_extends [] fs u hu).2
    intro hnil
    rw [hnil] at hlen
    simp at hlen
  refine ⟨hbase, fun i hi => ?_, fun i hi => ?_⟩
  · rw [mem_scanBuiltin] at hi
    obtain ⟨j, hj, pd, hpd, hi⟩ := hi
    subst hi
    exact ⟨j, hj, rfl, hbase j hj⟩
  · rcases foldl_gitignore_origin _ _ [] i hi with hin | ⟨j, hj, hp⟩
    · exact absurd hin (List.not_mem_nil i)
    · exact ⟨j, hj, hp, hbase j hj⟩

/-- Witness for C10 at a tree holding a directory and a log file: the single
item refers to the emitted directory `logs.log`, not to the file. -/
theorem claim_C10_witness :
    ∃ i ∈ scanBuiltin (FS.dir "r" true
        [FS.dir "logs.log" true [], FS.file "x.log" 3 true]),
      ∃ u ∈ Task.walkAll ⟨[], FS.dir "r" true
          [FS.dir "logs.log" true [], FS.file "x.log" 3 true]⟩,
        i.Path = u.path ∧ u.tree.isDir = true ∧ u.path ≠ [] := by
  refine ⟨⟨["logs.log"], "Log files", 0, "Log files", false⟩, by decide, ?_⟩
  exact (claim_C10 (FS.dir "r" true
      [FS.dir "logs.log" true [], FS.file "x.log" 3 true]) []).2.1
    ⟨["logs.log"], "Log files", 0, "Log files", false⟩ (by decide)

/-- Claim C4: every complete walker run — any interleaving of any number of
workers, modelled by the step relation that may process any pending directory
next — emits the same multiset of directories, the canonical walk; the
emitted directories are exactly those reachable from the root through
readable ancestry excluding `.git` (unreadable directories are themselves
emitted but their contents are silently skipped); and on a well-formed tree
(distinct names within each directory, as `os.ReadDir` guarantees) each such
directory is emitted exactly once. -/
theorem claim_C4 (fs : FS) (em : Multiset Task)
    (hrun : Relation.ReflTransGen WalkStep ([⟨[], fs⟩], 0) ([], em)) :
    em = ((Task.walkAll ⟨[], fs⟩ : List Task) : Multiset Task)
    ∧ (∀ u : Task, u ∈ Task.walkAll ⟨[], fs⟩ ↔ EmittedBy [] fs u)
    ∧ (FS.wfNames fs = true → em.Nodup) := by
  have h1 := walk_run_emits _ _ hrun
  refine ⟨h1, fun u => walkFrom_iff_emittedBy [] fs u, fun hwf => ?_⟩
  rw [h1]
  exact Multiset.coe_nodup.mpr (walkFrom_nodup [] fs hwf)

/-- Witness for C4: a two-step run over the tree `r/{a, .git, f}` — `.git`
and the file are never emitted — produces the canonical multiset, here with
no duplicates. -/
theorem claim_C4_witness :
    ((0 : Multiset Task)
        + ((Task.children ⟨[], FS.dir "r" true
            [FS.dir "a" true [], FS.dir ".git" true [],
              FS.file "f" 7 true]⟩ : List Task) : Multiset Task)
        + ((Task.children ⟨["a"], FS.dir "a" true []⟩ : List Task) :
            Multiset Task))
      = ((Task.walkAll ⟨[], FS.dir "r" true
          [FS.dir "a" true [], FS.dir ".git" true [],
            FS.file "f" 7 true]⟩ : List Task) : Multiset Task) :=
  (claim_C4 (FS.dir "r" true
      [FS.dir "a" true [], FS.dir ".git" true [], FS.file "f" 7 true]) _
    (Relation.ReflTransGen.tail
      (Relation.ReflTransGen.single (WalkStep.pop [] [] _ 0))
      (WalkStep.pop [] [] _ _))).1

end DevTidy
